import Mathlib

/-!
Verification of the cppcmb parser-combinator core (`src/cppcmb.hpp`).

The C++ library represents a combinator as a pure function from a token
iterator (cursor) to `std::optional<std::pair<Data, TokenIterator>>`.
`Data` is a single value or a `std::tuple` of values (a value group);
the helpers `as_tuple` and `unwrap_tuple` implement the flattening and
arity-one normalization applied at every group-construction boundary.

We embed this shallowly: `Val α` is the universe of runtime values an
algebra combinator can produce (an atom carrying a token-level datum, a
value group = tuple, an optional value as produced by `cmb_opt`, and a
collection as produced by `cmb_rep`).  A parser is a function from an
abstract cursor type `κ` to `Option (Val α × κ)`, matching the C++
`result_type`.  The unbounded `while (true)` loop of `cmb_rep_fn` is
embedded with explicit fuel: the outer `Option` layer of its result is
`none` exactly when the fuel ran out before the loop finished, and
`some res` when the loop returned the Result `res`.
-/

namespace Cppcmb

/-- Runtime values of the combinator algebra.  `atom` carries a single
datum (e.g. a token produced by `cmb_one_fn`), `tuple` is a value group
(`std::tuple`), `opt` an optional datum (`std::optional`, produced by
`cmb_opt_fn`), `coll` an ordered collection (produced by `cmb_rep_fn`). -/
inductive Val (α : Type) : Type where
  | atom : α → Val α
  | tuple : List (Val α) → Val α
  | opt : Option (Val α) → Val α
  | coll : List (Val α) → Val α

/-- A Result value, as in the C++ `result_type`: `none` is failure,
`some (v, it)` is success with data `v` and new cursor `it`. -/
abbrev PResult (κ α : Type) : Type := Option (Val α × κ)

/-- A combinator: a pure function from a cursor to a Result
(`fn_wrap<Callable, TokenIterator>` in the source). -/
abbrev Parser (κ α : Type) : Type := κ → PResult κ α

/-- Models `detail::as_tuple`: wraps a non-tuple value into a singleton
tuple and leaves tuples alone.  We return the element list of the
resulting tuple, which is how every call site (`std::tuple_cat`,
`std::apply`) consumes it. -/
def as_tuple {α : Type} : Val α → List (Val α)
  | .tuple ts => ts
  | v => [v]

/-- Models `detail::unwrap_tuple`: a 1-element tuple becomes its single
element, every other value is returned unchanged. -/
def unwrap_tuple {α : Type} : Val α → Val α
  | .tuple [v] => v
  | v => v

/-- `true` exactly on arity-one tuples, the shapes that `unwrap_tuple`
collapses.  The spec's Value invariant (§3) says no combinator ever
hands out such a value. -/
def Val.isUnit {α : Type} : Val α → Bool
  | .tuple [_] => true
  | _ => false

/-- A parser whose produced data is always arity-one-normalized (never a
1-element tuple) — the Value invariant of spec §3, maintained by every
combinator of the algebra. -/
def NormParser {κ α : Type} (p : Parser κ α) : Prop :=
  ∀ it v it2, p it = some (v, it2) → v.isUnit = false

/-- Models `cmb_succ_fn`: succeeds with an empty value group, consuming
nothing. -/
def cmb_succ_fn {κ α : Type} : Parser κ α :=
  fun it => some (.tuple [], it)

/-- Models `cmb_opt_fn`: applies the inner combinator; on failure
succeeds with an empty optional and the unchanged cursor, on success
wraps the data in an engaged optional and keeps the inner cursor. -/
def cmb_opt_fn {κ α : Type} (p : Parser κ α) : Parser κ α :=
  fun it =>
    match p it with
    | none => some (.opt none, it)
    | some r => some (.opt (some r.1), r.2)

/-- Models the two overloads of `cmb_seq_fn`: the nullary one succeeds
with an empty tuple and the incoming cursor; the recursive one runs the
first combinator, then the rest of the sequence from the first's cursor,
failing if either fails, and on success concatenates the two flattened
value groups and normalizes the result with `unwrap_tuple`. -/
def cmb_seq_fn {κ α : Type} : List (Parser κ α) → Parser κ α
  | [] => fun it => some (.tuple [], it)
  | p :: ps => fun it =>
    match p it with
    | none => none
    | some first =>
      match cmb_seq_fn ps first.2 with
      | none => none
      | some rest =>
        some (unwrap_tuple (.tuple (as_tuple first.1 ++ as_tuple rest.1)),
          rest.2)

/-- Models the two overloads of `cmb_alt_fn`: with no alternatives left
it fails; otherwise it runs the first alternative and returns its
Result unmodified if engaged, else tries the remaining alternatives from
the same, original cursor. -/
def cmb_alt_fn {κ α : Type} : List (Parser κ α) → Parser κ α
  | [] => fun _ => none
  | p :: ps => fun it =>
    match p it with
    | some r => some r
    | none => cmb_alt_fn ps it

/-- The `while (true)` loop body of `cmb_rep_fn`, with explicit fuel:
`acc` is the collection built so far, and the result is `none` exactly
when the fuel ran out before the inner combinator failed (the C++ loop
would still be running).  On inner failure it returns the accumulated
collection and the cursor of the last success. -/
def cmb_rep_loop {κ α : Type} (p : Parser κ α) :
    Nat → List (Val α) → κ → Option (List (Val α) × κ)
  | 0, _, _ => none
  | fuel + 1, acc, it =>
    match p it with
    | none => some (acc, it)
    | some r => cmb_rep_loop p fuel (acc ++ [r.1]) r.2

/-- Models `cmb_rep_fn`: runs the loop starting from an empty collection
and packages the collected values as the Result's data.  The outer
`Option` is the fuel layer: `none` means the loop did not finish within
`fuel` iterations; `some res` means the C++ function returns `res`. -/
def cmb_rep_fn {κ α : Type} (p : Parser κ α) (fuel : Nat) (it : κ) :
    Option (PResult κ α) :=
  (cmb_rep_loop p fuel [] it).map (fun r => some (.coll r.1, r.2))

/-- Models `cmb_rep1_fn`: runs `cmb_rep_fn` (always an engaged Result
when the loop finishes, so dereferencing `res->first` is safe) and fails
exactly when the collected collection is empty. -/
def cmb_rep1_fn {κ α : Type} (p : Parser κ α) (fuel : Nat) (it : κ) :
    Option (PResult κ α) :=
  (cmb_rep_loop p fuel [] it).map
    (fun r => if r.1.isEmpty then none else some (.coll r.1, r.2))

/-- Models the fallible-mapper specialization
`cmb_map_impl<expected<T>, ...>::pass`: runs the inner combinator; on
success applies the mapper to the flattened value group (`std::apply`
over `as_tuple`); if the mapper's `expected` outcome is engaged, returns
its unwrapped value with the inner combinator's cursor, otherwise fails;
on inner failure fails without consulting the mapper.  The mapper's
`Option` result models `detail::expected`, which is deliberately a
different type from the `Val.opt` domain values. -/
def cmb_map_exp_fn {κ α : Type} (p : Parser κ α)
    (f : List (Val α) → Option (Val α)) : Parser κ α :=
  fun it =>
    match p it with
    | none => none
    | some res =>
      match f (as_tuple res.1) with
      | none => none
      | some w => some (unwrap_tuple w, res.2)

/-- The reverse-iterator loop of `foldr_impl::operator()`: walks the
(already reversed) element list, updating the accumulator with
`g element acc` at each step. -/
def foldr_loop {β γ : Type} (g : β → γ → γ) : List β → γ → γ
  | [], acc => acc
  | e :: rest, acc => foldr_loop g rest (g e acc)

/-- Models `foldr_impl::operator()`: iterates the collection from
`crbegin` to `crend` (i.e. back to front), folding each element into the
accumulator, which starts at the seed. -/
def foldr_impl {β γ : Type} (g : β → γ → γ) (coll : List β) (seed : γ) : γ :=
  foldr_loop g coll.reverse seed

/-- Follows the spec's words for Sequence (§4.3): the combinators are
applied left to right over a single evolving cursor; the first failure
makes the whole run fail; on full success the flattened value groups are
concatenated in order and paired with the last combinator's cursor; the
empty sequence succeeds with an empty group and the original cursor. -/
def seqRunSpec {κ α : Type} : List (Parser κ α) → κ → Option (List (Val α) × κ)
  | [], it => some ([], it)
  | p :: ps, it =>
    match p it with
    | none => none
    | some r =>
      match seqRunSpec ps r.2 with
      | none => none
      | some rest => some (as_tuple r.1 ++ rest.1, rest.2)

/-- Follows the spec's words for RepeatZeroOrMore (§4.5): successive
successful applications of the inner combinator append their values, in
order, to the collection, and the run ends at the first failure with the
cursor of the last success (the starting cursor if there was none).
Fuel-indexed like `cmb_rep_loop`; `none` means the fuel ran out. -/
def repRunSpec {κ α : Type} (p : Parser κ α) :
    Nat → κ → Option (List (Val α) × κ)
  | 0, _ => none
  | fuel + 1, it =>
    match p it with
    | none => some ([], it)
    | some r => (repRunSpec p fuel r.2).map (fun rest => (r.1 :: rest.1, rest.2))

/-! ### Concrete sample parsers used by the witnesses -/

/-- A parser that always succeeds with the atom `1`, advancing a `Nat`
cursor by one. -/
def pAtom1 : Parser Nat Nat := fun it => some (.atom 1, it + 1)

/-- A parser that always succeeds with the atom `2`, advancing a `Nat`
cursor by one. -/
def pAtom2 : Parser Nat Nat := fun it => some (.atom 2, it + 1)

/-- A parser that always fails. -/
def pFail : Parser Nat Nat := fun _ => none

/-- A parser over an input of length 2: it yields the cursor position as
its atom and advances, failing once the cursor reaches position 2. -/
def pTok2 : Parser Nat Nat :=
  fun it => if it < 2 then some (.atom it, it + 1) else none

/-! ### Basic lemmas about flattening and normalization -/

/-- Re-wrapping a flattened value and normalizing gives the normalized
original: `unwrap_tuple (tuple (as_tuple v)) = unwrap_tuple v`. -/
theorem unwrap_tuple_as_tuple {α : Type} (v : Val α) :
    unwrap_tuple (.tuple (as_tuple v)) = unwrap_tuple v := by
  cases v with
  | tuple ts => rfl
  | atom a => rfl
  | opt o => rfl
  | coll l => rfl

/-- `unwrap_tuple` is the identity on values that are not arity-one
tuples. -/
theorem unwrap_tuple_of_not_unit {α : Type} (v : Val α)
    (h : v.isUnit = false) : unwrap_tuple v = v := by
  cases v with
  | tuple ts =>
    cases ts with
    | nil => rfl
    | cons w ws =>
      cases ws with
      | nil => simp [Val.isUnit] at h
      | cons w2 ws2 => rfl
  | atom a => rfl
  | opt o => rfl
  | coll l => rfl

/-- Flattening a normalized value never yields a lone tuple as the only
element of the flattened group. -/
theorem as_tuple_ne_single_tuple {α : Type} (v : Val α)
    (h : v.isUnit = false) : ∀ m, as_tuple v ≠ [Val.tuple m] := by
  intro m hm
  cases v with
  | tuple ts =>
    have hts : ts = [Val.tuple m] := hm
    rw [hts] at h
    exact Bool.noConfusion h
  | atom a =>
    injection hm with h1 h2
    exact Val.noConfusion h1
  | opt o =>
    injection hm with h1 h2
    exact Val.noConfusion h1
  | coll l =>
    injection hm with h1 h2
    exact Val.noConfusion h1

/-- Flattening undoes normalization-plus-grouping as long as the group
does not consist of exactly one tuple. -/
theorem as_tuple_unwrap_tuple {α : Type} (l : List (Val α))
    (h : ∀ m, l ≠ [Val.tuple m]) :
    as_tuple (unwrap_tuple (.tuple l)) = l := by
  cases l with
  | nil => rfl
  | cons v vs =>
    cases vs with
    | cons v2 vs2 => rfl
    | nil =>
      cases v with
      | tuple ts => exact absurd rfl (h ts)
      | atom a => rfl
      | opt o => rfl
      | coll m => rfl

/-- Normalizing a group that is not a lone tuple never produces an
arity-one tuple. -/
theorem isUnit_unwrap_tuple {α : Type} (l : List (Val α))
    (h : ∀ m, l ≠ [Val.tuple m]) :
    (unwrap_tuple (.tuple l)).isUnit = false := by
  cases l with
  | nil => rfl
  | cons v vs =>
    cases vs with
    | cons v2 vs2 => rfl
    | nil =>
      cases v with
      | tuple ts => exact absurd rfl (h ts)
      | atom a => rfl
      | opt o => rfl
      | coll m => rfl

theorem pAtom1_norm : NormParser pAtom1 := by
  intro it v it2 h
  simp only [pAtom1, Option.some.injEq, Prod.mk.injEq] at h
  rw [← h.1]
  rfl

theorem pAtom2_norm : NormParser pAtom2 := by
  intro it v it2 h
  simp only [pAtom2, Option.some.injEq, Prod.mk.injEq] at h
  rw [← h.1]
  rfl

theorem pFail_norm : NormParser pFail := by
  intro it v it2 h
  simp [pFail] at h

/-! ### Claim theorems -/

/-- Claim C2: `cmb_alt_fn` returns the first alternative's Result
unmodified whenever it is engaged, tries every alternative from the
same original cursor (it equals `List.findSome?` of the alternatives
all applied at the original cursor), and fails exactly when every
alternative fails at that cursor. -/
theorem ordered_choice_first_wins {κ α : Type} (ps : List (Parser κ α))
    (p : Parser κ α) (it : κ) :
    cmb_alt_fn ps it = ps.findSome? (fun q => q it) ∧
    (∀ r, p it = some r → cmb_alt_fn (p :: ps) it = some r) ∧
    (cmb_alt_fn ps it = none ↔ ∀ q ∈ ps, q it = none) := by
  have hmain : ∀ qs : List (Parser κ α),
      cmb_alt_fn qs it = qs.findSome? (fun q => q it) := by
    intro qs
    induction qs with
    | nil => rfl
    | cons q qs ih =>
      simp only [cmb_alt_fn, List.findSome?]
      cases hq : q it with
      | none => exact ih
      | some r => rfl
  refine ⟨hmain ps, ?_, ?_⟩
  · intro r hr
    simp [cmb_alt_fn, hr]
  · rw [hmain ps]
    induction ps with
    | nil => simp [List.findSome?]
    | cons q qs ih =>
      cases hq : q it with
      | some r => simp [List.findSome?, hq]
      | none =>
        simp only [List.findSome?, hq, List.mem_cons]
        rw [show (∀ x, x = q ∨ x ∈ qs → x it = none) ↔
            (q it = none ∧ ∀ x ∈ qs, x it = none) by
          constructor
          · intro hall
            exact ⟨hall q (Or.inl rfl),
              fun x hx => hall x (Or.inr hx)⟩
          · rintro ⟨h1, h2⟩ x (rfl | hx)
            · exact h1
            · exact h2 x hx]
        simp only [hq, true_and]
        exact ih

/-- Claim C2 witness: the first alternative succeeds at cursor 0 and its
Result is returned unmodified, regardless of the later alternative. -/
theorem ordered_choice_first_wins_witness :
    cmb_alt_fn [pAtom1, pFail] 0 = some (.atom 1, 1) :=
  (ordered_choice_first_wins [pFail] pAtom1 0).2.1 (.atom 1, 1) rfl

/-- Claim C4: a one-element sequence equals the inner combinator up to
arity-one normalization of the produced value — and exactly equals it
on combinators satisfying the spec's Value invariant (§3). -/
theorem seq_singleton_identity {κ α : Type} (p : Parser κ α) (it : κ) :
    cmb_seq_fn [p] it = (p it).map (fun r => (unwrap_tuple r.1, r.2)) ∧
    (NormParser p → cmb_seq_fn [p] it = p it) := by
  have hstep : ∀ q : Val α × κ, p it = some q →
      cmb_seq_fn [p] it = some (unwrap_tuple q.1, q.2) := by
    intro q hq
    simp [cmb_seq_fn, hq,
      show as_tuple (Val.tuple ([] : List (Val α))) = [] from rfl,
      unwrap_tuple_as_tuple]
  have hmain :
      cmb_seq_fn [p] it = (p it).map (fun r => (unwrap_tuple r.1, r.2)) := by
    cases hp : p it with
    | none => simp [cmb_seq_fn, hp]
    | some r => rw [hstep r hp]; rfl
  refine ⟨hmain, fun hn => ?_⟩
  rw [hmain]
  cases hp : p it with
  | none => rfl
  | some r =>
    have hu := unwrap_tuple_of_not_unit r.1 (hn it r.1 r.2 (by rw [hp]))
    show some (unwrap_tuple r.1, r.2) = some r
    rw [hu]

/-- Claim C4 witness: `Sequence(pAtom1)` at cursor 0 equals `pAtom1` at
cursor 0. -/
theorem seq_singleton_identity_witness :
    cmb_seq_fn [pAtom1] 0 = pAtom1 0 :=
  (seq_singleton_identity pAtom1 0).2 pAtom1_norm

/-- Claim C5: `cmb_opt_fn` never fails; when the inner combinator
succeeds with `(v, it2)` it returns the engaged optional of `v` with
cursor `it2`, and when the inner combinator fails it returns the empty
optional with the original cursor unchanged. -/
theorem optional_totality {κ α : Type} (p : Parser κ α) (it : κ) :
    (cmb_opt_fn p it).isSome = true ∧
    (∀ v it2, p it = some (v, it2) →
      cmb_opt_fn p it = some (.opt (some v), it2)) ∧
    (p it = none → cmb_opt_fn p it = some (.opt none, it)) := by
  refine ⟨?_, ?_, ?_⟩
  · simp only [cmb_opt_fn]
    cases p it with
    | none => rfl
    | some r => rfl
  · intro v it2 h
    simp [cmb_opt_fn, h]
  · intro h
    simp [cmb_opt_fn, h]

/-- Claim C5 witness: at cursor 0, `Optional(pFail)` succeeds with the
empty optional and the unchanged cursor. -/
theorem optional_totality_witness :
    cmb_opt_fn pFail 0 = some (.opt none, 0) :=
  (optional_totality pFail 0).2.2 rfl

/-- Claim C7: the fallible Map fails (with no cursor) when the mapper
declines, even though the inner combinator succeeded and advanced; when
the mapper yields `w` it succeeds with the arity-one-normalized `w`
(exactly `w` whenever `w` respects the Value invariant) and the inner
cursor; and when the inner combinator fails it fails for every mapper
alike — the mapper is never consulted. -/
theorem fallible_map_overrides_success {κ α : Type} (p : Parser κ α)
    (f : List (Val α) → Option (Val α)) (it : κ) :
    (∀ v it2, p it = some (v, it2) → f (as_tuple v) = none →
      cmb_map_exp_fn p f it = none) ∧
    (∀ v it2 w, p it = some (v, it2) → f (as_tuple v) = some w →
      cmb_map_exp_fn p f it = some (unwrap_tuple w, it2) ∧
      (w.isUnit = false → cmb_map_exp_fn p f it = some (w, it2))) ∧
    (p it = none → ∀ g, cmb_map_exp_fn p g it = none) := by
  refine ⟨?_, ?_, ?_⟩
  · intro v it2 hp hf
    simp [cmb_map_exp_fn, hp, hf]
  · intro v it2 w hp hf
    refine ⟨by simp [cmb_map_exp_fn, hp, hf], fun hw => ?_⟩
    simp [cmb_map_exp_fn, hp, hf, unwrap_tuple_of_not_unit w hw]
  · intro hp g
    simp [cmb_map_exp_fn, hp]

/-- Claim C7 witness: a mapper that always declines turns the success of
`pAtom1` at cursor 0 into an absent Result. -/
theorem fallible_map_overrides_success_witness :
    cmb_map_exp_fn pAtom1 (fun _ => none) 0 = none :=
  (fallible_map_overrides_success pAtom1 (fun _ => none) 0).1
    (.atom 1) 1 rfl rfl

/-! ### Sequence lemmas -/

/-- Unfolding lemma for `seqRunSpec` on a non-empty sequence, in
monadic form. -/
theorem seqRunSpec_cons {κ α : Type} (p : Parser κ α)
    (ps : List (Parser κ α)) (it : κ) :
    seqRunSpec (p :: ps) it = (p it).bind (fun r =>
      (seqRunSpec ps r.2).map
        (fun rest => (as_tuple r.1 ++ rest.1, rest.2))) := by
  cases hp : p it with
  | none => simp [seqRunSpec, hp]
  | some r =>
    simp only [seqRunSpec, hp, Option.bind_some]
    cases hrest : seqRunSpec ps r.2 <;> simp [hrest]

/-- A one-element spec run flattens the single combinator's value. -/
theorem seqRunSpec_singleton {κ α : Type} (p : Parser κ α) (it : κ) :
    seqRunSpec [p] it = (p it).map (fun r => (as_tuple r.1, r.2)) := by
  cases hp : p it <;> simp [seqRunSpec, hp]

/-- The concatenated flattened value group of a run of normalized
combinators never consists of exactly one tuple, so re-flattening after
normalization is harmless. -/
theorem seqRunSpec_ne_single_tuple {κ α : Type} (ps : List (Parser κ α))
    (h : ∀ p ∈ ps, NormParser p) :
    ∀ it l it2, seqRunSpec ps it = some (l, it2) →
      ∀ m, l ≠ [Val.tuple m] := by
  induction ps with
  | nil =>
    intro it l it2 hrun m heq
    simp only [seqRunSpec, Option.some.injEq, Prod.mk.injEq] at hrun
    rw [← hrun.1] at heq
    exact List.noConfusion heq
  | cons p ps ih =>
    intro it l it2 hrun m heq
    have hnp : NormParser p := h p (List.mem_cons_self p ps)
    have hnps : ∀ q ∈ ps, NormParser q :=
      fun q hq => h q (List.mem_cons_of_mem p hq)
    cases hp : p it with
    | none =>
      simp only [seqRunSpec, hp] at hrun
      exact Option.noConfusion hrun
    | some r =>
      simp only [seqRunSpec, hp] at hrun
      cases hrest : seqRunSpec ps r.2 with
      | none =>
        simp only [hrest] at hrun
        exact Option.noConfusion hrun
      | some rr =>
        simp only [hrest, Option.some.injEq, Prod.mk.injEq] at hrun
        have hcat : as_tuple r.1 ++ rr.1 = [Val.tuple m] := by
          rw [hrun.1]; exact heq
        have hnorm : r.1.isUnit = false := hnp it r.1 r.2 (by rw [hp])
        cases hat : as_tuple r.1 with
        | nil =>
          rw [hat, List.nil_append] at hcat
          exact ih hnps r.2 rr.1 rr.2 (by rw [hrest]) m hcat
        | cons y ys =>
          rw [hat, List.cons_append] at hcat
          injection hcat with h1 h2
          have hys : ys = [] := (List.append_eq_nil.mp h2).1
          rw [h1, hys] at hat
          exact as_tuple_ne_single_tuple r.1 hnorm m hat

/-- `cmb_seq_fn` refines the spec-side left-to-right run: on normalized
combinators it returns exactly the normalized concatenation of the
flattened value groups together with the run's final cursor, and fails
exactly when the run fails. -/
theorem seq_eq_runSpec {κ α : Type} (ps : List (Parser κ α))
    (h : ∀ p ∈ ps, NormParser p) (it : κ) :
    cmb_seq_fn ps it = (seqRunSpec ps it).map
      (fun r => (unwrap_tuple (.tuple r.1), r.2)) := by
  induction ps generalizing it with
  | nil => rfl
  | cons p ps ih =>
    have hnps : ∀ q ∈ ps, NormParser q :=
      fun q hq => h q (List.mem_cons_of_mem p hq)
    cases hp : p it with
    | none => simp [cmb_seq_fn, seqRunSpec, hp]
    | some r =>
      simp only [cmb_seq_fn, seqRunSpec, hp]
      rw [ih hnps r.2]
      cases hrest : seqRunSpec ps r.2 with
      | none => rfl
      | some rr =>
        have hne := seqRunSpec_ne_single_tuple ps hnps r.2 rr.1 rr.2
          (by rw [hrest])
        show some (unwrap_tuple (.tuple (as_tuple r.1 ++
            as_tuple (unwrap_tuple (.tuple rr.1)))), rr.2) = _
        rw [as_tuple_unwrap_tuple rr.1 hne]
        rfl

/-- Sequencing normalized combinators yields a normalized combinator:
the Value invariant of spec §3 is maintained by `cmb_seq_fn`. -/
theorem cmb_seq_norm {κ α : Type} (ps : List (Parser κ α))
    (h : ∀ p ∈ ps, NormParser p) : NormParser (cmb_seq_fn ps) := by
  intro it v it2 hres
  rw [seq_eq_runSpec ps h it] at hres
  cases hrun : seqRunSpec ps it with
  | none => rw [hrun] at hres; exact Option.noConfusion hres
  | some rr =>
    rw [hrun] at hres
    have hres2 : (unwrap_tuple (.tuple rr.1), rr.2) = (v, it2) :=
      Option.some.inj hres
    injection hres2 with h1 h2
    rw [← h1]
    exact isUnit_unwrap_tuple rr.1
      (seqRunSpec_ne_single_tuple ps h it rr.1 rr.2 (by rw [hrun]))

/-- Splitting a spec run at any point: the flattened groups of the two
halves concatenate and the cursor threads through. -/
theorem seqRunSpec_append {κ α : Type} (ps qs : List (Parser κ α))
    (it : κ) :
    seqRunSpec (ps ++ qs) it = (seqRunSpec ps it).bind (fun r =>
      (seqRunSpec qs r.2).map (fun rest => (r.1 ++ rest.1, rest.2))) := by
  induction ps generalizing it with
  | nil =>
    cases hq : seqRunSpec qs it <;> simp [seqRunSpec, hq]
  | cons p ps ih =>
    cases hp : p it with
    | none => simp [seqRunSpec, hp]
    | some r =>
      rw [List.cons_append]
      simp only [seqRunSpec, hp, ih, Option.bind_some]
      cases hrest : seqRunSpec ps r.2 with
      | none => rfl
      | some rr =>
        cases hq : seqRunSpec qs rr.2 <;> simp [hq, List.append_assoc]

/-- Claim C1: Sequence applies its combinators left to right over a
single evolving cursor, fails outright (no cursor, no value) as soon as
one of them fails, on full success returns the normalized concatenation
of the flattened value groups of its parts paired with the last part's
cursor, and the empty sequence succeeds with an empty group and the
original cursor.  The hypothesis is the Value invariant of spec §3:
every part produces arity-one-normalized data. -/
theorem seq_left_to_right {κ α : Type} (ps : List (Parser κ α))
    (h : ∀ p ∈ ps, NormParser p) (it : κ) :
    cmb_seq_fn ps it = (seqRunSpec ps it).map
      (fun r => (unwrap_tuple (.tuple r.1), r.2)) ∧
    cmb_seq_fn ([] : List (Parser κ α)) it = some (.tuple [], it) :=
  ⟨seq_eq_runSpec ps h it, rfl⟩

/-- Claim C1 witness: sequencing the two sample combinators at cursor 0
concatenates their value groups and returns the second one's cursor. -/
theorem seq_left_to_right_witness :
    cmb_seq_fn [pAtom1, pAtom2] 0 = some (.tuple [.atom 1, .atom 2], 2) := by
  have h := (seq_left_to_right [pAtom1, pAtom2]
    (by
      intro q hq
      simp only [List.mem_cons, List.not_mem_nil, or_false] at hq
      rcases hq with rfl | rfl
      · exact pAtom1_norm
      · exact pAtom2_norm) 0).1
  rw [h]
  rfl

/-- Claim C3: sequencing is associative on combinators satisfying the
Value invariant of spec §3 — nesting a Sequence on the left or on the
right of another Sequence produces exactly the ternary Sequence's
Result (same flattened value group, same final cursor, and failure of
one form is failure of the other), so an inner Sequence's group is
never nested inside the outer group. -/
theorem seq_associative {κ α : Type} (A B C : Parser κ α)
    (hA : NormParser A) (hB : NormParser B) (hC : NormParser C) (it : κ) :
    cmb_seq_fn [cmb_seq_fn [A, B], C] it = cmb_seq_fn [A, B, C] it ∧
    cmb_seq_fn [A, cmb_seq_fn [B, C]] it = cmb_seq_fn [A, B, C] it ∧
    (cmb_seq_fn [cmb_seq_fn [A, B], C] it = none ↔
      cmb_seq_fn [A, B, C] it = none) := by
  have hlAB : ∀ q ∈ [A, B], NormParser q := by
    intro q hq
    simp only [List.mem_cons, List.not_mem_nil, or_false] at hq
    rcases hq with rfl | rfl
    · exact hA
    · exact hB
  have hlBC : ∀ q ∈ [B, C], NormParser q := by
    intro q hq
    simp only [List.mem_cons, List.not_mem_nil, or_false] at hq
    rcases hq with rfl | rfl
    · exact hB
    · exact hC
  have hlABC : ∀ q ∈ [A, B, C], NormParser q := by
    intro q hq
    simp only [List.mem_cons, List.not_mem_nil, or_false] at hq
    rcases hq with rfl | rfl | rfl
    · exact hA
    · exact hB
    · exact hC
  have hlL : ∀ q ∈ [cmb_seq_fn [A, B], C], NormParser q := by
    intro q hq
    simp only [List.mem_cons, List.not_mem_nil, or_false] at hq
    rcases hq with rfl | rfl
    · exact cmb_seq_norm [A, B] hlAB
    · exact hC
  have hlR : ∀ q ∈ [A, cmb_seq_fn [B, C]], NormParser q := by
    intro q hq
    simp only [List.mem_cons, List.not_mem_nil, or_false] at hq
    rcases hq with rfl | rfl
    · exact hA
    · exact cmb_seq_norm [B, C] hlBC
  have spec1 : seqRunSpec [cmb_seq_fn [A, B], C] it =
      seqRunSpec [A, B, C] it := by
    rw [seqRunSpec_cons, seq_eq_runSpec [A, B] hlAB it,
      show ([A, B, C] : List (Parser κ α)) = [A, B] ++ [C] from rfl,
      seqRunSpec_append]
    cases h1 : seqRunSpec [A, B] it with
    | none => rfl
    | some rr =>
      have hne := seqRunSpec_ne_single_tuple [A, B] hlAB it rr.1 rr.2
        (by rw [h1])
      show (seqRunSpec [C] rr.2).map (fun rest =>
          (as_tuple (unwrap_tuple (.tuple rr.1)) ++ rest.1, rest.2)) =
        (seqRunSpec [C] rr.2).map (fun rest => (rr.1 ++ rest.1, rest.2))
      rw [as_tuple_unwrap_tuple rr.1 hne]
  have spec2 : seqRunSpec [A, cmb_seq_fn [B, C]] it =
      seqRunSpec [A, B, C] it := by
    rw [seqRunSpec_cons A [cmb_seq_fn [B, C]] it,
      seqRunSpec_cons A [B, C] it]
    cases ha : A it with
    | none => rfl
    | some ra =>
      show (seqRunSpec [cmb_seq_fn [B, C]] ra.2).map (fun rest =>
          (as_tuple ra.1 ++ rest.1, rest.2)) =
        (seqRunSpec [B, C] ra.2).map (fun rest =>
          (as_tuple ra.1 ++ rest.1, rest.2))
      rw [seqRunSpec_singleton, seq_eq_runSpec [B, C] hlBC ra.2]
      cases hbc : seqRunSpec [B, C] ra.2 with
      | none => rfl
      | some rr =>
        have hne := seqRunSpec_ne_single_tuple [B, C] hlBC ra.2 rr.1 rr.2
          (by rw [hbc])
        show some (as_tuple ra.1 ++
            as_tuple (unwrap_tuple (.tuple rr.1)), rr.2) = _
        rw [as_tuple_unwrap_tuple rr.1 hne]
        rfl
  have e1 : cmb_seq_fn [cmb_seq_fn [A, B], C] it =
      cmb_seq_fn [A, B, C] it := by
    rw [seq_eq_runSpec _ hlL it, seq_eq_runSpec _ hlABC it, spec1]
  have e2 : cmb_seq_fn [A, cmb_seq_fn [B, C]] it =
      cmb_seq_fn [A, B, C] it := by
    rw [seq_eq_runSpec _ hlR it, seq_eq_runSpec _ hlABC it, spec2]
  exact ⟨e1, e2, by rw [e1]⟩

/-- Claim C3 witness: both nestings of the sample combinators at
cursor 0 equal the flat ternary sequence, which yields the flat group
`(1, 2, 1)` — no nested group — and the cursor after three advances. -/
theorem seq_associative_witness :
    cmb_seq_fn [cmb_seq_fn [pAtom1, pAtom2], pAtom1] 0 =
      some (.tuple [.atom 1, .atom 2, .atom 1], 3) ∧
    cmb_seq_fn [pAtom1, cmb_seq_fn [pAtom2, pAtom1]] 0 =
      some (.tuple [.atom 1, .atom 2, .atom 1], 3) := by
  have h := seq_associative pAtom1 pAtom2 pAtom1
    pAtom1_norm pAtom2_norm pAtom1_norm 0
  refine ⟨?_, ?_⟩
  · rw [h.1]; rfl
  · rw [h.2.1]; rfl

/-! ### Repetition lemmas -/

/-- The repetition loop's accumulator is a pure prefix: running with
accumulator `acc` prepends `acc` to the collection obtained from the
empty accumulator. -/
theorem rep_loop_acc {κ α : Type} (p : Parser κ α) :
    ∀ (fuel : Nat) (acc : List (Val α)) (it : κ),
      cmb_rep_loop p fuel acc it =
        (cmb_rep_loop p fuel [] it).map (fun r => (acc ++ r.1, r.2)) := by
  intro fuel
  induction fuel with
  | zero => intro acc it; rfl
  | succ f ih =>
    intro acc it
    cases hp : p it with
    | none => simp [cmb_rep_loop, hp]
    | some r =>
      simp only [cmb_rep_loop, hp, List.nil_append]
      rw [ih (acc ++ [r.1]) r.2, ih [r.1] r.2]
      cases hl : cmb_rep_loop p f [] r.2 <;> simp [List.append_assoc]

/-- The repetition loop computes exactly the spec-side run: the values
of the successive successful applications in order, with the cursor of
the last success. -/
theorem rep_loop_eq_runSpec {κ α : Type} (p : Parser κ α) :
    ∀ (fuel : Nat) (it : κ),
      cmb_rep_loop p fuel [] it = repRunSpec p fuel it := by
  intro fuel
  induction fuel with
  | zero => intro it; rfl
  | succ f ih =>
    intro it
    cases hp : p it with
    | none => simp [cmb_rep_loop, repRunSpec, hp]
    | some r =>
      simp only [cmb_rep_loop, repRunSpec, hp, List.nil_append]
      rw [rep_loop_acc p f [r.1] r.2, ih r.2]
      cases hl : repRunSpec p f r.2 <;> simp

/-- If the inner combinator fails immediately, one round of the
spec-side run returns the empty collection and the original cursor. -/
theorem repRunSpec_none_first {κ α : Type} (p : Parser κ α) (fuel : Nat)
    (it : κ) (hp : p it = none) :
    repRunSpec p (fuel + 1) it = some ([], it) := by
  simp [repRunSpec, hp]

/-- If the inner combinator succeeds on the first attempt, a finished
spec-side run never has an empty collection. -/
theorem repRunSpec_succ_first {κ α : Type} (p : Parser κ α) (fuel : Nat)
    (it : κ) (r : Val α × κ) (hp : p it = some r) :
    ∀ l it2, repRunSpec p fuel it = some (l, it2) → l ≠ [] := by
  cases fuel with
  | zero => intro l it2 h; exact Option.noConfusion h
  | succ f =>
    intro l it2 h
    simp only [repRunSpec, hp] at h
    cases hr : repRunSpec p f r.2 with
    | none =>
      rw [hr] at h
      exact Option.noConfusion h
    | some rest =>
      rw [hr] at h
      have h2 := Option.some.inj h
      injection h2 with e1 e2
      rw [← e1]
      exact List.cons_ne_nil _ _

/-- Claim C6: whenever the repetition loop finishes within its fuel,
`cmb_rep_fn` returns exactly the spec-side run's Result — the ordered
collection of the successive successful inner applications and the
cursor of the last success — and that Result is never absent (the
original cursor comes back with an empty collection when the inner
combinator fails immediately); `cmb_rep1_fn` returns absent exactly when
the inner combinator fails on the very first attempt, and otherwise
returns the very same Result as `cmb_rep_fn`. -/
theorem rep_and_rep1_totality {κ α : Type} (p : Parser κ α) (fuel : Nat)
    (it : κ) :
    cmb_rep_fn p fuel it = (repRunSpec p fuel it).map
      (fun r => some (.coll r.1, r.2)) ∧
    (∀ res, cmb_rep_fn p fuel it = some res → res.isSome = true) ∧
    (∀ res, cmb_rep1_fn p fuel it = some res → (res = none ↔ p it = none)) ∧
    (p it = none → cmb_rep_fn p (fuel + 1) it = some (some (.coll [], it))) ∧
    (p it ≠ none → cmb_rep1_fn p fuel it = cmb_rep_fn p fuel it) := by
  have h1 : cmb_rep_fn p fuel it = (repRunSpec p fuel it).map
      (fun r => some (.coll r.1, r.2)) := by
    show (cmb_rep_loop p fuel [] it).map _ = _
    rw [rep_loop_eq_runSpec]
  have h1b : cmb_rep1_fn p fuel it = (repRunSpec p fuel it).map
      (fun r => if r.1.isEmpty then none else some (.coll r.1, r.2)) := by
    show (cmb_rep_loop p fuel [] it).map _ = _
    rw [rep_loop_eq_runSpec]
  refine ⟨h1, ?_, ?_, ?_, ?_⟩
  · intro res hres
    rw [h1] at hres
    cases hrun : repRunSpec p fuel it with
    | none => rw [hrun] at hres; exact Option.noConfusion hres
    | some rr =>
      rw [hrun] at hres
      rw [← Option.some.inj hres]
      rfl
  · intro res hres
    rw [h1b] at hres
    cases hrun : repRunSpec p fuel it with
    | none => rw [hrun] at hres; exact Option.noConfusion hres
    | some rr =>
      rw [hrun] at hres
      have hres2 := Option.some.inj hres
      cases hp : p it with
      | none =>
        cases fuel with
        | zero => exact Option.noConfusion hrun
        | succ f =>
          rw [repRunSpec_none_first p f it hp] at hrun
          have hrr := Option.some.inj hrun
          rw [← hres2, ← hrr]
          simp
      | some r =>
        have hne := repRunSpec_succ_first p fuel it r hp rr.1 rr.2
          (by rw [hrun])
        have hF : rr.1.isEmpty = false := by
          cases hrr : rr.1 with
          | nil => exact absurd hrr hne
          | cons a l => rfl
        rw [← hres2]
        simp [hF]
  · intro hp
    simp [cmb_rep_fn, cmb_rep_loop, hp]
  · intro hp
    cases hpi : p it with
    | none => exact absurd hpi hp
    | some r =>
      rw [h1, h1b]
      cases hrun : repRunSpec p fuel it with
      | none => rfl
      | some rr =>
        have hne := repRunSpec_succ_first p fuel it r hpi rr.1 rr.2
          (by rw [hrun])
        have hF : rr.1.isEmpty = false := by
          cases hrr : rr.1 with
          | nil => exact absurd hrr hne
          | cons a l => rfl
        show some (if rr.1.isEmpty then none
            else some (Val.coll rr.1, rr.2)) = some (some (.coll rr.1, rr.2))
        rw [hF]
        rfl

/-- Claim C6 witness: on the two-token sample input, the inner
combinator succeeds at cursor 0, so `RepeatOneOrMore` agrees with
`RepeatZeroOrMore` there. -/
theorem rep_and_rep1_totality_witness :
    cmb_rep1_fn pTok2 3 0 = cmb_rep_fn pTok2 3 0 :=
  (rep_and_rep1_totality pTok2 3 0).2.2.2.2 (by simp [pTok2])

/-- Claim C10: if the inner combinator makes strict progress towards
the end of the input (position `n`) on every success, the repetition
loop of `cmb_rep_fn` finishes within `n - c + 1` iterations from any
cursor `c ≤ n` and returns a Result. -/
theorem rep_terminates {α : Type} (p : Parser Nat α) (n : Nat)
    (hp : ∀ it v it2, p it = some (v, it2) → it < it2 ∧ it2 ≤ n)
    (c : Nat) (hc : c ≤ n) (fuel : Nat) (hfuel : n - c < fuel) :
    (cmb_rep_fn p fuel c).isSome = true := by
  suffices hloop : ∀ (fuel c : Nat), c ≤ n → n - c < fuel →
      ∀ acc, (cmb_rep_loop p fuel acc c).isSome = true by
    have h2 := hloop fuel c hc hfuel []
    cases hl : cmb_rep_loop p fuel [] c with
    | none => rw [hl] at h2; exact Bool.noConfusion h2
    | some rr =>
      show ((cmb_rep_loop p fuel [] c).map _).isSome = true
      rw [hl]
      rfl
  intro fuel
  induction fuel with
  | zero => intro c hc hf; exact absurd hf (Nat.not_lt_zero _)
  | succ f ih =>
    intro c hc hf acc
    cases hpc : p c with
    | none => simp [cmb_rep_loop, hpc]
    | some r =>
      obtain ⟨hlt, hle⟩ := hp c r.1 r.2 (by rw [hpc])
      simp only [cmb_rep_loop, hpc]
      exact ih r.2 hle (by omega) (acc ++ [r.1])

/-- Claim C10 witness: the sample token consumer makes strict progress
on an input of length 2, so from the start cursor the loop returns a
Result within fuel 3. -/
theorem rep_terminates_witness : (cmb_rep_fn pTok2 3 0).isSome = true :=
  rep_terminates pTok2 2
    (by
      intro it v it2 h
      simp only [pTok2] at h
      split at h
      · injection h with h1
        injection h1 with h2 h3
        omega
      · exact Option.noConfusion h)
    0 (by decide) 3 (by decide)

/-- Claim C9: `foldr_impl` is the right-associative fold: it processes
the collection back to front with the seed as the rightmost accumulator,
`combine(e1, combine(e2, ... combine(en, seed)))`, and being a total
function it has no failure mode of its own. -/
theorem foldr_right_associative {β γ : Type} (g : β → γ → γ)
    (coll : List β) (seed : γ) (e1 e2 e3 : β) :
    foldr_impl g coll seed = List.foldr g seed coll ∧
    foldr_impl g [e1, e2, e3] seed = g e1 (g e2 (g e3 seed)) := by
  have hloop : ∀ (l : List β) (acc : γ),
      foldr_loop g l acc = l.foldl (fun a e => g e a) acc := by
    intro l
    induction l with
    | nil => intro acc; rfl
    | cons e rest ih => intro acc; simp only [foldr_loop, List.foldl]; exact ih _
  have hmain : ∀ (l : List β),
      foldr_impl g l seed = List.foldr g seed l := by
    intro l
    rw [foldr_impl, hloop, List.foldl_reverse]
  exact ⟨hmain coll, hmain [e1, e2, e3]⟩

end Cppcmb
